import Mathlib

/-!
Verification of the kitsugi content-addressable store.

This file gives a shallow embedding of the core of the kitsugi code base:
the canonical hasher with its visitor protocol (`src/kitsugi/hashing.py`),
the write-batch ingestion tail (`src/kitsugi/processing.py`), the
reconstructor and splicer (`src/kitsugi/reconstruction.py`), the search
join (`src/kitsugi/search.py`), the declarative where-clause engine
(`src/kitsugi/database.py`) and the breadth-first path finder
(`src/kitsugi/analysis.py`), together with theorems settling the stated
properties of those components.

The cryptographic hash `hashlib.sha256(...).hexdigest()` is treated as an
abstract function parameter `sha : String → String`; everything proved here
holds for every choice of `sha` (collision-freedom instances are explicit
hypotheses where a statement needs them).  JSON numbers are modelled as
integers; none of the properties below exercises non-integral floats.
-/

namespace Kitsugi

/-! ## Decimal representation of naturals (model of Python `str(int)`) -/

/-- One decimal digit (values 0..9) rendered as the character Python prints. -/
def decChar : Nat → Char
  | 0 => '0' | 1 => '1' | 2 => '2' | 3 => '3' | 4 => '4'
  | 5 => '5' | 6 => '6' | 7 => '7' | 8 => '8' | 9 => '9'
  | _ => '*'

/-- Little-endian decimal digits of `n`, with explicit fuel (`fuel ≥ n` suffices). -/
def decDigits : Nat → Nat → List Nat
  | 0, _ => []
  | _ + 1, 0 => []
  | fuel + 1, n => (n % 10) :: decDigits fuel (n / 10)

/-- Model of Python `str(n)` for a non-negative integer `n`. -/
def natStr (n : Nat) : String :=
  if n = 0 then "0" else String.mk (((decDigits n n).reverse).map decChar)

/-- Value of a little-endian decimal digit list. -/
def decValue : List Nat → Nat
  | [] => 0
  | d :: ds => d + 10 * decValue ds

theorem decValue_decDigits : ∀ fuel n, n ≤ fuel → decValue (decDigits fuel n) = n := by
  intro fuel
  induction fuel with
  | zero => intro n h; interval_cases n; simp [decDigits, decValue]
  | succ f ih =>
    intro n h
    cases n with
    | zero => simp [decDigits, decValue]
    | succ m =>
      have hlt : (m + 1) / 10 ≤ f := by omega
      simp only [decDigits, decValue, ih _ hlt]
      omega

theorem decDigits_lt_ten : ∀ fuel n, ∀ d ∈ decDigits fuel n, d < 10 := by
  intro fuel
  induction fuel with
  | zero => intro n d hd; simp [decDigits] at hd
  | succ f ih =>
    intro n d hd
    cases n with
    | zero => simp [decDigits] at hd
    | succ m =>
      simp only [decDigits, List.mem_cons] at hd
      rcases hd with h | h
      · omega
      · exact ih _ _ h

theorem decChar_inj {a b : Nat} (ha : a < 10) (hb : b < 10) (h : decChar a = decChar b) :
    a = b := by
  interval_cases a <;> interval_cases b <;> simp_all [decChar]

theorem map_decChar_inj : ∀ l₁ l₂ : List Nat, (∀ d ∈ l₁, d < 10) → (∀ d ∈ l₂, d < 10) →
    l₁.map decChar = l₂.map decChar → l₁ = l₂ := by
  intro l₁
  induction l₁ with
  | nil => intro l₂ _ _ h; cases l₂ <;> simp_all
  | cons a as ih =>
    intro l₂ h1 h2 h
    cases l₂ with
    | nil => simp at h
    | cons b bs =>
      simp only [List.map_cons, List.cons.injEq] at h
      have : a = b := decChar_inj (h1 a (by simp)) (h2 b (by simp)) h.1
      have : as = bs := ih bs (fun d hd => h1 d (by simp [hd])) (fun d hd => h2 d (by simp [hd])) h.2
      simp_all

theorem natStr_inj : Function.Injective natStr := by
  intro m n h
  unfold natStr at h
  by_cases hm : m = 0 <;> by_cases hn : n = 0
  · omega
  · exfalso
    simp only [hm, if_pos rfl, if_neg hn] at h
    have := congrArg String.data h
    simp only [String.data] at this
    have : [(0 : Nat)].map decChar = ((decDigits n n).reverse).map decChar := by
      simpa [decChar] using this
    have h0 : [(0 : Nat)] = (decDigits n n).reverse :=
      map_decChar_inj _ _ (by simp) (fun d hd => decDigits_lt_ten n n d (by simpa using hd)) this
    have : decValue (decDigits n n) = n := decValue_decDigits n n le_rfl
    have : decDigits n n = [0] := by
      have := congrArg List.reverse h0
      simpa using this.symm
    simp [this, decValue] at *
    omega
  · exfalso
    simp only [hn, if_pos rfl, if_neg hm] at h
    have := congrArg String.data h
    simp only [String.data] at this
    have : ((decDigits m m).reverse).map decChar = [(0 : Nat)].map decChar := by
      simpa [decChar] using this
    have h0 : (decDigits m m).reverse = [(0 : Nat)] :=
      map_decChar_inj _ _ (fun d hd => decDigits_lt_ten m m d (by simpa using hd)) (by simp) this
    have hv : decValue (decDigits m m) = m := decValue_decDigits m m le_rfl
    have : decDigits m m = [0] := by
      have := congrArg List.reverse h0
      simpa using this
    simp [this, decValue] at hv
    omega
  · simp only [if_neg hm, if_neg hn] at h
    have := congrArg String.data h
    simp only [String.data] at this
    have h2 : (decDigits m m).reverse = (decDigits n n).reverse :=
      map_decChar_inj _ _ (fun d hd => decDigits_lt_ten m m d (by simpa using hd))
        (fun d hd => decDigits_lt_ten n n d (by simpa using hd)) this
    have : decDigits m m = decDigits n n := by
      have := congrArg List.reverse h2
      simpa using this
    calc m = decValue (decDigits m m) := (decValue_decDigits m m le_rfl).symm
      _ = decValue (decDigits n n) := by rw [this]
      _ = n := decValue_decDigits n n le_rfl

/-- Model of Python `str(i)` for an integer (used by `json.dumps` on ints). -/
def intStr (n : Int) : String :=
  if n < 0 then "-" ++ natStr n.natAbs else natStr n.toNat

/-! ## Small character/string utilities used by the embedding -/

/-- ASCII decimal digit test.  Python's `str.isdigit` also accepts
non-ASCII Unicode digit characters (e.g. "٣"), so theorems that rely on
the two tests agreeing carry an explicit ASCII-keys hypothesis. -/
def isDigitCh (c : Char) : Bool := decide ('0' ≤ c) && decide (c ≤ '9')

/-- Model of Python `str.isdigit()` on an ASCII string: true exactly on
non-empty all-digit strings (Python `"".isdigit()` is `False`).  On
strings containing non-ASCII Unicode digits Python's test is wider, so
this model is only applied under an ASCII-keys hypothesis. -/
def isDigits (s : String) : Bool := !s.data.isEmpty && s.data.all isDigitCh

/-- Model of Python `int(s)` on an all-digit string. -/
def strToNat (s : String) : Nat :=
  s.data.foldl (fun a c => a * 10 + (c.toNat - 48)) 0

/-- Lexicographic code-point comparison of character lists: the order Python
uses when comparing `str` values (and hence in `sorted(...)`). -/
def lexLe : List Char → List Char → Bool
  | [], _ => true
  | _ :: _, [] => false
  | a :: as, b :: bs => if a = b then lexLe as bs else decide (a < b)

/-- Python `s1 <= s2` on strings: lexicographic by code point. -/
def strLe (s t : String) : Bool := lexLe s.data t.data

theorem lexLe_total : ∀ as bs : List Char, lexLe as bs || lexLe bs as := by
  intro as
  induction as with
  | nil => intro bs; simp [lexLe]
  | cons a as ih =>
    intro bs
    cases bs with
    | nil => simp [lexLe]
    | cons b bs =>
      by_cases hab : a = b
      · subst hab; simpa [lexLe] using ih bs
      · rcases lt_or_gt_of_ne hab with h | h
        · simp [lexLe, hab, h]
        · simp [lexLe, hab, Ne.symm hab, h, not_lt_of_gt h]

theorem lexLe_trans : ∀ as bs cs : List Char,
    lexLe as bs = true → lexLe bs cs = true → lexLe as cs = true := by
  intro as
  induction as with
  | nil => intro bs cs _ _; simp [lexLe]
  | cons a as ih =>
    intro bs cs h1 h2
    cases bs with
    | nil => simp [lexLe] at h1
    | cons b bs =>
      cases cs with
      | nil => simp [lexLe] at h2
      | cons c cs =>
        by_cases hab : a = b <;> by_cases hbc : b = c
        · subst hab; subst hbc
          simp only [lexLe, if_pos rfl] at h1 h2 ⊢
          exact ih bs cs h1 h2
        · subst hab
          simp only [lexLe, if_neg hbc] at h2
          simp [lexLe, hbc, h2]
        · subst hbc
          simp only [lexLe, if_neg hab] at h1
          simp [lexLe, hab, h1]
        · simp only [lexLe, if_neg hab, if_neg hbc, decide_eq_true_eq] at h1 h2
          have hac : a < c := lt_trans h1 h2
          simp [lexLe, ne_of_lt hac, hac]

/-! ## Insertion sort of object members by key (model of Python `sorted`) -/

/-- Insert a key-value pair into a list sorted ascending by key. -/
def keyInsert (x : String × α) : List (String × α) → List (String × α)
  | [] => [x]
  | y :: ys => if strLe x.1 y.1 then x :: y :: ys else y :: keyInsert x ys

/-- Sort an association list ascending by key, the way Python's
`sorted(d.keys())` enumerates the members of a dict. -/
def sortPairs : List (String × α) → List (String × α)
  | [] => []
  | x :: xs => keyInsert x (sortPairs xs)

theorem mem_keyInsert {x y : String × α} : ∀ l, y ∈ keyInsert x l → y = x ∨ y ∈ l := by
  intro l
  induction l with
  | nil => intro h; simpa [keyInsert] using h
  | cons z zs ih =>
    intro h
    by_cases hc : strLe x.1 z.1
    · simp only [keyInsert, if_pos hc] at h
      rcases List.mem_cons.mp h with rfl | h
      · exact Or.inl rfl
      · exact Or.inr h
    · simp only [keyInsert, if_neg hc] at h
      rcases List.mem_cons.mp h with rfl | h
      · exact Or.inr (by simp)
      · rcases ih h with h | h
        · exact Or.inl h
        · exact Or.inr (by simp [h])

theorem mem_sortPairs {y : String × α} : ∀ l, y ∈ sortPairs l → y ∈ l := by
  intro l
  induction l with
  | nil => simp [sortPairs]
  | cons x xs ih =>
    intro h
    rcases mem_keyInsert _ h with h | h
    · simp [h]
    · simp [ih h]

theorem sizeOf_keyInsert [SizeOf α] (x : String × α) :
    ∀ l : List (String × α), sizeOf (keyInsert x l) = sizeOf (x :: l) := by
  intro l
  induction l with
  | nil => simp [keyInsert]
  | cons y ys ih =>
    simp only [keyInsert]
    by_cases h : strLe x.1 y.1
    · simp [h]
    · simp only [if_neg h, List.cons.sizeOf_spec, ih]
      omega

theorem sizeOf_sortPairs [SizeOf α] :
    ∀ l : List (String × α), sizeOf (sortPairs l) = sizeOf l := by
  intro l
  induction l with
  | nil => simp [sortPairs]
  | cons x xs ih =>
    simp only [sortPairs, sizeOf_keyInsert, List.cons.sizeOf_spec, ih]

theorem keyInsert_perm (x : String × α) : ∀ l, List.Perm (keyInsert x l) (x :: l) := by
  intro l
  induction l with
  | nil => simp [keyInsert]
  | cons y ys ih =>
    by_cases h : strLe x.1 y.1
    · simp [keyInsert, h]
    · simp only [keyInsert, if_neg h]
      exact (ih.cons y).trans (List.Perm.swap x y ys)

theorem sortPairs_perm : ∀ l : List (String × α), List.Perm (sortPairs l) l := by
  intro l
  induction l with
  | nil => simp [sortPairs]
  | cons x xs ih =>
    exact (keyInsert_perm x (sortPairs xs)).trans (ih.cons x)

theorem keyInsert_sorted (x : String × α) :
    ∀ l, List.Pairwise (fun p q : String × α => strLe p.1 q.1 = true) l →
      List.Pairwise (fun p q : String × α => strLe p.1 q.1 = true) (keyInsert x l) := by
  intro l
  induction l with
  | nil => intro _; simp [keyInsert]
  | cons y ys ih =>
    intro h
    rcases List.pairwise_cons.mp h with ⟨hy, hys⟩
    by_cases hxy : strLe x.1 y.1
    · simp only [keyInsert, if_pos hxy]
      refine List.pairwise_cons.mpr ⟨?_, h⟩
      intro z hz
      rcases List.mem_cons.mp hz with rfl | hz
      · exact hxy
      · exact lexLe_trans _ _ _ hxy (hy z hz)
    · simp only [keyInsert, if_neg hxy]
      refine List.pairwise_cons.mpr ⟨?_, ih hys⟩
      intro z hz
      rcases mem_keyInsert _ hz with rfl | hz
      · have htot := lexLe_total z.1.data y.1.data
        have hf : lexLe z.1.data y.1.data = false := by
          simpa [strLe] using hxy
        simpa [strLe, hf] using htot
      · exact hy z hz

theorem sortPairs_sorted :
    ∀ l : List (String × α), List.Pairwise (fun p q : String × α => strLe p.1 q.1 = true) (sortPairs l) := by
  intro l
  induction l with
  | nil => simp [sortPairs]
  | cons x xs ih => exact keyInsert_sorted x _ ih

/-! ## SQL LIKE (model of SQLite `LIKE`, ASCII case-insensitive) -/

/-- ASCII lower-casing of one character, as SQLite applies to `LIKE` operands. -/
def asciiLower (c : Char) : Char :=
  if 'A' ≤ c && c ≤ 'Z' then Char.ofNat (c.toNat + 32) else c

/-- Model of the SQLite `LIKE` matcher over exploded strings: the pattern
may contain `%` (any run of characters) and `_` (any single character).
Fuel makes the recursion structural; every step shortens pattern plus
subject by at least one, so `strLike` below always supplies enough. -/
def likeMatch : Nat → List Char → List Char → Bool
  | 0, _, _ => false
  | fuel + 1, ps, s =>
    match ps, s with
    | [], [] => true
    | [], _ :: _ => false
    | '%' :: ps', s =>
      likeMatch fuel ps' s ||
        (match s with
         | [] => false
         | _ :: s' => likeMatch fuel ('%' :: ps') s')
    | '_' :: ps', s =>
      (match s with
       | [] => false
       | _ :: s' => likeMatch fuel ps' s')
    | p :: ps', s =>
      (match s with
       | [] => false
       | c :: s' => asciiLower p = asciiLower c && likeMatch fuel ps' s')

/-- Model of `column LIKE pattern` on strings. -/
def strLike (pattern s : String) : Bool :=
  likeMatch (pattern.data.length + s.data.length + 1) pattern.data s.data

/-! ## JSON values (the trees handed to the hasher by `json.loads`) -/

/-- A JSON-like value as produced by `json.loads`.  Numbers are modelled as
integers; the properties verified here never need non-integral floats. -/
inductive JsonVal where
  | null
  | bool (b : Bool)
  | int (n : Int)
  | str (s : String)
  | arr (elems : List JsonVal)
  | obj (members : List (String × JsonVal))

mutual
/-- Structural size of a JSON value (1 per node), used as recursion fuel:
it strictly exceeds the tree height, so fuel never runs out. -/
def jsize : JsonVal → Nat
  | .arr xs => 1 + jsizeA xs
  | .obj kvs => 1 + jsizeO kvs
  | _ => 1
def jsizeA : List JsonVal → Nat
  | [] => 0
  | v :: r => 1 + jsize v + jsizeA r
def jsizeO : List (String × JsonVal) → Nat
  | [] => 0
  | (_, v) :: r => 1 + jsize v + jsizeO r
end

/-- Python `isinstance(node, (dict, list))`. -/
def JsonVal.isComposite : JsonVal → Bool
  | .arr _ => true
  | .obj _ => true
  | _ => false

/-- Hex digit character, lowercase, as printed by `json.dumps` in escapes. -/
def hexCh (n : Nat) : Char :=
  if n < 10 then decChar n
  else if n = 10 then 'a' else if n = 11 then 'b' else if n = 12 then 'c'
  else if n = 13 then 'd' else if n = 14 then 'e' else 'f'

/-- Escaping of a single character inside a JSON string literal, following
`json.dumps` with `ensure_ascii=False`: quote, backslash and the named
control characters get two-character escapes, other control characters get
a `\u00XX` escape, and everything else (including non-ASCII) is emitted
verbatim. -/
def escChar (c : Char) : String :=
  if c = '"' then "\\\""
  else if c = '\\' then "\\\\"
  else if c = '\n' then "\\n"
  else if c = '\r' then "\\r"
  else if c = '\t' then "\\t"
  else if c.toNat = 8 then "\\b"
  else if c.toNat = 12 then "\\f"
  else if c.toNat < 32 then "\\u00" ++ String.mk [hexCh (c.toNat / 16), hexCh (c.toNat % 16)]
  else String.singleton c

/-- JSON string-literal escaping of a whole string. -/
def escapeJson (s : String) : String := String.join (s.data.map escChar)

/-- Model of `json.dumps(node, ensure_ascii=False)` for primitive (scalar)
nodes, the only nodes the source serializes this way. -/
def jsonDumpsPrim : JsonVal → String
  | .null => "null"
  | .bool true => "true"
  | .bool false => "false"
  | .int n => intStr n
  | .str s => "\"" ++ escapeJson s ++ "\""
  | _ => ""

/-! ## The memo cache of `_hash_recursive`

The source caches results in a Python dict keyed by `id(node)` for dicts and
lists and by the node's own value for primitives.  Within one traversal of a
tree freshly produced by `json.loads` the `id` of every dict/list occurrence
is distinct, so the cache can only ever hit on primitives; for those, Python
dict lookup uses Python equality, under which `True == 1 == 1.0` and
`False == 0`.  `PrimKey` is the induced key space: booleans collapse onto
their integer values. -/

inductive PrimKey where
  | kint (n : Int)
  | kstr (s : String)
  | knull
deriving DecidableEq

/-- The Python dict key a primitive value presents to the memo cache. -/
def pyKey : JsonVal → PrimKey
  | .bool b => .kint (if b then 1 else 0)
  | .int n => .kint n
  | .str s => .kstr s
  | _ => .knull

/-- The memo cache: association list from primitive keys to hashes. -/
abbrev Memo := List (PrimKey × String)

/-- Dict lookup in the memo cache. -/
def memoFind (m : Memo) (k : PrimKey) : Option String :=
  (m.find? (fun p => decide (p.1 = k))).map (fun p => p.2)

/-! ## The canonical hasher with its visitor protocol -/

/-- One call of `visitor.visit(hash_val, node, location_str, is_primitive,
parent_hash, child_key)`. -/
structure VisitEvent where
  hashVal : String
  node : JsonVal
  location : String
  isPrim : Bool
  parentHash : Option String
  childKey : Option String

/-- One entry of the `child_info` list built inside `_hash_recursive`. -/
structure ChildInfo where
  key : String
  hash : String
  node : JsonVal

/-- Result of `_hash_recursive`: the node's hash, the updated memo cache,
and the visitor calls made, in order. -/
structure HashOut where
  hash : String
  memo : Memo
  events : List VisitEvent

/-- Result of the child loop of `_hash_recursive` on a composite node:
`inputs` is the `hash_inputs` list, `info` the `child_info` list. -/
structure ChildrenOut where
  inputs : List String
  info : List ChildInfo
  memo : Memo
  events : List VisitEvent

/-- The member loop of `_hash_recursive` on a dict, over the sorted,
stripped member list, threading the memo cache left to right; `recur` is
the recursive call one level down. -/
def hashObjChildren (recur : JsonVal → String → Memo → HashOut) (fp path : String) :
    List (String × JsonVal) → Memo → ChildrenOut
  | [], m => ⟨[], [], m, []⟩
  | (k, v) :: rest, m =>
    let c := recur v (path ++ "." ++ k) m
    let r := hashObjChildren recur fp path rest c.memo
    ⟨(k ++ ":" ++ c.hash) :: r.inputs, ⟨k, c.hash, v⟩ :: r.info, r.memo,
      c.events ++ r.events⟩

/-- The element loop of `_hash_recursive` on a list, with `i` the running
`enumerate` index and `recur` the recursive call one level down. -/
def hashArrChildren (recur : JsonVal → String → Memo → HashOut) (fp path : String) :
    Nat → List JsonVal → Memo → ChildrenOut
  | _, [], m => ⟨[], [], m, []⟩
  | i, v :: rest, m =>
    let c := recur v (path ++ ".[" ++ natStr i ++ "]") m
    let r := hashArrChildren recur fp path (i + 1) rest c.memo
    ⟨c.hash :: r.inputs, ⟨natStr i, c.hash, v⟩ :: r.info, r.memo,
      c.events ++ r.events⟩

/-- Model of `_hash_recursive` from `src/kitsugi/hashing.py`.  Dict members
named `_sha256_hash` are stripped, remaining members are processed in
sorted key order, arrays in index order; primitives consult the memo cache
keyed by Python equality and are not visited themselves.  `sha` abstracts
`hashlib.sha256(...).hexdigest()`.  `fuel` only bounds the recursion
depth, which the structural recursion of the source bounds by the tree
height; `sizeOf node` always suffices, so the inert out-of-fuel result is
never reached from `calculate_canonical_hash` (`jsize` fuel suffices). -/
def hashRec (sha : String → String) (fp : String) : Nat → JsonVal → String → Memo → HashOut
  | 0, _, _, m => ⟨"", m, []⟩
  | fuel + 1, .obj kvs, path, m =>
    let kvs' := kvs.filter (fun p => decide (p.1 ≠ "_sha256_hash"))
    let co := hashObjChildren (hashRec sha fp fuel) fp path (sortPairs kvs') m
    let ph := sha ("\x7b " ++ String.intercalate ", " co.inputs ++ " \x7d")
    ⟨ph, co.memo,
      co.events ++
        ⟨ph, .obj kvs', fp ++ ":" ++ path, false, none, none⟩ ::
          co.info.map (fun ci =>
            ⟨ci.hash, ci.node, fp ++ ":" ++ path ++ "." ++ ci.key,
              !ci.node.isComposite, some ph, some ci.key⟩)⟩
  | fuel + 1, .arr xs, path, m =>
    let co := hashArrChildren (hashRec sha fp fuel) fp path 0 xs m
    let ph := sha ("[ " ++ String.intercalate ", " co.inputs ++ " ]")
    ⟨ph, co.memo,
      co.events ++
        ⟨ph, .arr xs, fp ++ ":" ++ path, false, none, none⟩ ::
          co.info.map (fun ci =>
            ⟨ci.hash, ci.node, fp ++ ":" ++ path ++ ".[" ++ ci.key ++ "]",
              !ci.node.isComposite, some ph, some ci.key⟩)⟩
  | _ + 1, v, _, m =>
    match memoFind m (pyKey v) with
    | some h => ⟨h, m, []⟩
    | none =>
      let h := sha (jsonDumpsPrim v)
      ⟨h, m ++ [(pyKey v, h)], []⟩

/-- Model of `calculate_canonical_hash(node, visitor, file_path_str)`: the
traversal starts at jq path "." with an empty memo cache; the visitor is
represented by the returned event list.  `jsize node` strictly exceeds
the tree height, so the fuel never runs out. -/
def calculate_canonical_hash (sha : String → String) (node : JsonVal) (fp : String) : HashOut :=
  hashRec sha fp (jsize node) node "." []

/-! ## The write visitor -/

/-- The three batches accumulated by `WriteContextVisitor`. -/
structure WriteCtx where
  index_data : List (String × String)
  graph_data : List (String × String × String)
  primitive_data : List (String × String)

/-- One `WriteContextVisitor.visit` call: always records `(hash, location)`;
records a graph edge when a truthy parent hash and a non-`None` child key
are supplied; records serialized data for primitives. -/
def visitStep (w : WriteCtx) (e : VisitEvent) : WriteCtx :=
  ⟨w.index_data ++ [(e.hashVal, e.location)],
    w.graph_data ++
      (match e.parentHash, e.childKey with
       | some p, some k => if p ≠ "" then [(p, k, e.hashVal)] else []
       | _, _ => []),
    w.primitive_data ++ (if e.isPrim then [(e.hashVal, jsonDumpsPrim e.node)] else [])⟩

/-- Replay a traversal's visitor calls into a fresh `WriteContextVisitor`. -/
def buildWriteCtx (evs : List VisitEvent) : WriteCtx :=
  evs.foldl visitStep ⟨[], [], []⟩

theorem intercalate_go_eq (s : String) :
    ∀ (l : List String) (acc b : String),
      String.intercalate.go acc s (b :: l) = acc ++ s ++ String.intercalate.go b s l := by
  intro l
  induction l with
  | nil => intro acc b; rfl
  | cons c cs ih =>
    intro acc b
    show String.intercalate.go (acc ++ s ++ b) s (c :: cs) = _
    rw [ih (acc ++ s ++ b) c, ih b c]
    simp [String.append_assoc]

theorem intercalate_cons₂ (s a b : String) (l : List String) :
    String.intercalate s (a :: b :: l) = a ++ s ++ String.intercalate s (b :: l) := by
  show String.intercalate.go a s (b :: l) = _
  rw [intercalate_go_eq s l a b]
  rfl

theorem intercalate_go_nil (acc s : String) : String.intercalate.go acc s [] = acc := rfl

/-! ## The store: the four primary relations plus the full-text index -/

/-- The logical database state: the four primary relations of
`DATABASE_SCHEMA` plus the derived `data_search_idx` full-text table. -/
structure DB where
  hash_index : List (String × String)
  hash_graph : List (String × String × String)
  hash_to_data : List (String × String)
  reconstructed_docs : List (String × String)
  data_search_idx : List (String × String)

/-- The empty store. -/
def emptyDB : DB := ⟨[], [], [], [], []⟩

/-- Bulk insert into a table whose first column is a primary key, with
`INSERT OR IGNORE` semantics: rows whose key already exists are silently
dropped. -/
def insertIgnoreKeyed (table : List (String × String)) :
    List (String × String) → List (String × String)
  | [] => table
  | (h, d) :: rest =>
    if (table.map Prod.fst).contains h then insertIgnoreKeyed table rest
    else insertIgnoreKeyed (table ++ [(h, d)]) rest

/-- Modelled from the spec: `Repository.clear_all_data` is called by
`run_asset_processor` but missing from the Repository in
`src/kitsugi/database.py`; per §4.3/§9(b) it truncates the four primary
relations (the full-text index is refilled by the subsequent
`REBUILD_FTS`). -/
def clear_all_data (db : DB) : DB :=
  ⟨[], [], [], [], db.data_search_idx⟩

/-- Modelled from the spec: `Repository.save_processed_data(visitor)` is
called by `run_asset_processor` but missing from the Repository in
`src/kitsugi/database.py`; per §4.3/§9(b) it bulk-inserts the visitor's
three batches into `hash_index`, `hash_graph` and `hash_to_data`
(`hash_to_data` has a primary key on `hash`; duplicate-key rows are dropped
per the §4.2 `ignore` insert option) and then triggers `REBUILD_FTS`, which
repopulates `data_search_idx` from `hash_to_data`. -/
def save_processed_data (db : DB) (v : WriteCtx) : DB :=
  let newData := insertIgnoreKeyed db.hash_to_data v.primitive_data
  ⟨db.hash_index ++ v.index_data, db.hash_graph ++ v.graph_data, newData,
    db.reconstructed_docs, newData⟩

/-- The save tail of `run_asset_processor` (`src/kitsugi/processing.py`,
lines 43-49): with a non-empty index batch it clears all data, saves the
visitor batches and commits; otherwise the store is left untouched.  The
returned flag records whether `repo.commit()` ran. -/
def run_asset_processor_save (db : DB) (v : WriteCtx) : DB × Bool :=
  if v.index_data.isEmpty then (db, false)
  else (save_processed_data (clear_all_data db) v, true)

/-- Ingest a single parsed document: hash it with a fresh
`WriteContextVisitor` and run the processor's save tail on an empty store. -/
def ingestOne (sha : String → String) (fp : String) (doc : JsonVal) : DB × Bool :=
  run_asset_processor_save emptyDB (buildWriteCtx (calculate_canonical_hash sha doc fp).events)

/-! ## A scalar JSON parser (model of `json.loads` on stored primitives) -/

/-- Undo JSON string-literal escaping; fails on escape forms that
`json.dumps` with `ensure_ascii=False` does not produce on the scalar
values modelled here, and on unescaped control characters (codepoint
below 32), which `json.loads` rejects in its default strict mode. -/
def unescapeChars : List Char → Option (List Char)
  | [] => some []
  | '\\' :: '"' :: r => (unescapeChars r).map (fun l => '"' :: l)
  | '\\' :: '\\' :: r => (unescapeChars r).map (fun l => '\\' :: l)
  | '\\' :: '/' :: r => (unescapeChars r).map (fun l => '/' :: l)
  | '\\' :: 'n' :: r => (unescapeChars r).map (fun l => '\n' :: l)
  | '\\' :: 'r' :: r => (unescapeChars r).map (fun l => '\r' :: l)
  | '\\' :: 't' :: r => (unescapeChars r).map (fun l => '\t' :: l)
  | '\\' :: 'b' :: r => (unescapeChars r).map (fun l => Char.ofNat 8 :: l)
  | '\\' :: 'f' :: r => (unescapeChars r).map (fun l => Char.ofNat 12 :: l)
  | '\\' :: _ => none
  | '"' :: _ => none
  | c :: rest =>
    if c.toNat < 32 then none
    else (unescapeChars rest).map (fun l => c :: l)

/-- The digit part of the JSON integer grammar `0 | [1-9][0-9]*`:
non-empty, and no leading zero unless the literal is exactly `0`
(`json.loads("007")` raises `JSONDecodeError`). -/
def jsonDigitRun : List Char → Bool
  | [] => false
  | ['0'] => true
  | c :: ds => decide ('1' ≤ c) && decide (c ≤ '9') && ds.all isDigitCh

/-- Whether a string is a decimal integer literal of the JSON grammar
(optionally signed, no leading zeros). -/
def isIntString (s : String) : Bool :=
  match s.data with
  | '-' :: ds => jsonDigitRun ds
  | ds => jsonDigitRun ds

/-- Value of a decimal integer literal. -/
def strToInt (s : String) : Int :=
  match s.data with
  | '-' :: ds => -(strToNat (String.mk ds) : Int)
  | _ => (strToNat s : Int)

/-- Model of `json.loads(data)` on the scalar grammar produced by
`json.dumps` on primitives: `null`, booleans, decimal integers, and quoted
strings.  Other inputs (which cannot be produced by ingestion) fail. -/
def parseScalar (s : String) : Option JsonVal :=
  if s = "null" then some .null
  else if s = "true" then some (.bool true)
  else if s = "false" then some (.bool false)
  else if isIntString s then some (.int (strToInt s))
  else
    match s.data with
    | '"' :: rest =>
      match rest.getLast? with
      | some '"' =>
        if rest.length ≥ 1 then
          (unescapeChars rest.dropLast).map (fun l => .str (String.mk l))
        else none
      | _ => none
    | _ => none

/-! ## The reconstructor -/

/-- The in-band error marker returned for a fingerprint with neither
children nor stored primitive data. -/
def sentinel (h : String) : JsonVal :=
  .obj [("error", .str "Primitive data not found for hash"),
        ("hash", .str h)]

/-- Python dict assignment `d[k] = v`: replaces in place or appends. -/
def dictInsert (l : List (String × JsonVal)) (k : String) (v : JsonVal) :
    List (String × JsonVal) :=
  match l with
  | [] => [(k, v)]
  | (k', v') :: rest => if k' = k then (k', v) :: rest else (k', v') :: dictInsert rest k v

/-- The reconstruction memo cache, keyed by fingerprint. -/
abbrev RMemo := List (String × JsonVal)

/-- Lookup in the reconstruction memo cache. -/
def rmemoFind (m : RMemo) (h : String) : Option JsonVal :=
  (m.find? (fun p => decide (p.1 = h))).map (fun p => p.2)

/-- The rows `repo.execute` returns for the children query of
`reconstruct_from_hash`: `(child_key, child_hash)` of every `hash_graph`
row whose `parent_hash` is `h`. -/
def childrenOf (db : DB) (h : String) : List (String × String) :=
  (db.hash_graph.filter (fun r => decide (r.1 = h))).map (fun r => (r.2.1, r.2.2))

/-- The row `repo.execute` returns for the `hash_to_data` query (LIMIT 1). -/
def dataOf (db : DB) (h : String) : Option String :=
  (db.hash_to_data.find? (fun r => decide (r.1 = h))).map (fun r => r.2)

/-- Failure modes of the Python reconstructor: `depth` models exhausting the
interpreter's recursion limit, `index` the `IndexError` raised by
`reconstructed_list[int(key)]` on an out-of-range index key, `parse` a
`json.JSONDecodeError` from `json.loads` on stored data. -/
inductive RecErr where
  | depth
  | index
  | parse
deriving DecidableEq

/-- The child loop of `reconstruct_from_hash`: reconstruct each child in
row order, threading the memo cache; `recur` is the recursive call one
stack frame down. -/
def reconKids (recur : String → RMemo → Except RecErr (JsonVal × RMemo)) :
    List (String × String) → RMemo → Except RecErr (List (String × JsonVal) × RMemo)
  | [], memo => .ok ([], memo)
  | (k, ch) :: rest, memo =>
    match recur ch memo with
    | .error e => .error e
    | .ok (v, m1) =>
      match reconKids recur rest m1 with
      | .error e => .error e
      | .ok (l, m2) => .ok ((k, v) :: l, m2)

/-- The placements `reconstructed_list[int(key)] = child` of the list
branch, over the accumulator `[None] * len(children)`; an out-of-range
position raises `IndexError`.  (The source interleaves each placement with
the next child's reconstruction; performing them after the child loop can
only change which of two errors surfaces, never a success.) -/
def placeArr : List JsonVal → List (String × JsonVal) → Except RecErr (List JsonVal)
  | acc, [] => .ok acc
  | acc, (k, v) :: rest =>
    if strToNat k < acc.length then placeArr (acc.set (strToNat k) v) rest
    else .error .index

/-- The dict assignments `reconstructed_dict[key] = child` of the dict
branch. -/
def buildObj : List (String × JsonVal) → List (String × JsonVal) → List (String × JsonVal)
  | acc, [] => acc
  | acc, (k, v) :: rest => buildObj (dictInsert acc k v) rest

/-- Model of `reconstruct_from_hash(repo, target_hash, memo_cache)` from
`src/kitsugi/reconstruction.py`, with explicit fuel standing for the call
stack.  Children rows make the node composite (an array exactly when every
child key is all digits), otherwise the primitive table is consulted and a
missing row yields the in-band `sentinel`. -/
def reconstruct_from_hash (db : DB) : Nat → String → RMemo → Except RecErr (JsonVal × RMemo)
  | 0, _, _ => .error .depth
  | fuel + 1, h, memo =>
    match rmemoFind memo h with
    | some v => .ok (v, memo)
    | none =>
      let children := childrenOf db h
      if children.isEmpty then
        match dataOf db h with
        | some d =>
          match parseScalar d with
          | some v => .ok (v, memo ++ [(h, v)])
          | none => .error .parse
        | none => .ok (sentinel h, memo ++ [(h, sentinel h)])
      else
        match reconKids (reconstruct_from_hash db fuel) children memo with
        | .error e => .error e
        | .ok (pairs, m') =>
          if children.all (fun p => isDigits p.1) then
            match placeArr (List.replicate children.length JsonVal.null) pairs with
            | .ok l => .ok (.arr l, m' ++ [(h, .arr l)])
            | .error e => .error e
          else
            .ok (.obj (buildObj [] pairs), m' ++ [(h, .obj (buildObj [] pairs))])

/-! ## The splicer -/

/-- The rows feeding `root_hashes`: hashes of `hash_index` rows whose
location matches `LIKE '%:.'` (the DISTINCT of the query is irrelevant to
the set these rows denote). -/
def spliceCandidates (db : DB) : List String :=
  (db.hash_index.filter (fun r => strLike "%:." r.2)).map Prod.fst

/-- Whether a fingerprint appears as `child_hash` in `hash_graph` (the
membership test behind `contained_hashes`). -/
def isContained (db : DB) (h : String) : Bool :=
  db.hash_graph.any (fun r => decide (r.2.2 = h))

/-- Membership in the splicer's `true_roots = root_hashes - contained_hashes`. -/
def isTrueRoot (db : DB) (h : String) : Bool :=
  (spliceCandidates db).contains h && !isContained db h

/-- A faithful stand-in for Python's unspecified iteration order over the
set `true_roots`: `enum` is a valid enumeration when it lists exactly the
true roots, each once. -/
def ValidEnum (db : DB) (enum : List String) : Prop :=
  enum.Nodup ∧ ∀ h, h ∈ enum ↔ isTrueRoot db h = true

/-- Bulk insert into `reconstructed_docs` (`doc_name` primary key,
`root_hash` unique): a conflicting row makes SQLite raise. -/
def docsInsert (table : List (String × String)) :
    List (String × String) → Except String (List (String × String))
  | [] => .ok table
  | (n, h) :: rest =>
    if (table.map Prod.fst).contains n || (table.map (fun r => r.2)).contains h then
      .error "UNIQUE constraint failed"
    else docsInsert (table ++ [(n, h)]) rest

/-- The rows of the comprehension
`[{'doc_name': f"doc_{i+1}", 'root_hash': h} for i, h in enumerate(true_roots)]`,
with `n` the name counter (`enumerate` starts it at `i + 1 = 1`). -/
def docRowsFrom (n : Nat) : List String → List (String × String)
  | [] => []
  | h :: rest => ("doc_" ++ natStr n, h) :: docRowsFrom (n + 1) rest

/-- Model of `find_and_splice_shredded_files(repo)` from
`src/kitsugi/reconstruction.py`.  With no candidate fragments it returns
early (no delete, no commit).  Otherwise it deletes all of
`reconstructed_docs` and inserts one row per enumerated true root, named
`doc_1`, `doc_2`, … in enumeration order, then commits.  `enum` stands for
Python's set iteration order over `true_roots`. -/
def find_and_splice_shredded_files (db : DB) (enum : List String) :
    Except String (DB × Bool) :=
  if (spliceCandidates db).isEmpty then .ok (db, false)
  else
    match docsInsert [] (docRowsFrom 1 enum) with
    | .ok docs =>
      .ok (⟨db.hash_index, db.hash_graph, db.hash_to_data, docs, db.data_search_idx⟩, true)
    | .error e => .error e

/-! ## Search -/

/-- Characters FTS5's default tokenizer keeps inside a token (restricted to
ASCII alphanumerics, the alphabet exercised here). -/
def isTokenCh (c : Char) : Bool :=
  isDigitCh c || (decide ('a' ≤ c) && decide (c ≤ 'z')) || (decide ('A' ≤ c) && decide (c ≤ 'Z'))

/-- Split a character stream into maximal token runs (`cur` is the current
run, reversed). -/
def tokenSplit : List Char → List Char → List (List Char)
  | [], cur => if cur.isEmpty then [] else [cur.reverse]
  | c :: rest, cur =>
    if isTokenCh c then tokenSplit rest (c :: cur)
    else if cur.isEmpty then tokenSplit rest [] else cur.reverse :: tokenSplit rest []

/-- Modelled external behavior: the tokens SQLite FTS5's default tokenizer
extracts from a stored value, lowercased. -/
def ftsTokens (s : String) : List String :=
  (tokenSplit s.data []).map (fun l => String.mk (l.map asciiLower))

/-- Modelled external behavior: `data_search_idx MATCH q` for a single bare
term `q`: the row matches when the lowercased term is among the row's
tokens. -/
def ftsTermMatch (q data : String) : Bool :=
  (ftsTokens data).contains (String.mk (q.data.map asciiLower))

/-- The structured record `run_search` prints. -/
structure SearchOut where
  search_query : String
  total_matches : Nat
  matches_by_location : List (String × List JsonVal)

/-- Append a parsed value under its location, preserving Python dict
insertion order. -/
def appendAt (acc : List (String × List JsonVal)) (loc : String) (v : JsonVal) :
    List (String × List JsonVal) :=
  match acc with
  | [] => [(loc, [v])]
  | (l, vs) :: rest => if l = loc then (l, vs ++ [v]) :: rest else (l, vs) :: appendAt rest loc v

/-- The grouping loop of `run_search`: `json.loads` each matched value and
collect it under its location. -/
def groupMatches : List (String × String) → List (String × List JsonVal) →
    Option (List (String × List JsonVal))
  | [], acc => some acc
  | (data, loc) :: rest, acc =>
    match parseScalar data with
    | none => none
    | some v => groupMatches rest (appendAt acc loc v)

/-- Model of `run_search(db_conn, query_string)` from
`src/kitsugi/search.py`: join the full-text matches against `hash_index`
on the fingerprint, order by location, group values by location.  `none`
models the unhandled `json.loads` failure on corrupted stored data. -/
def run_search (db : DB) (q : String) : Option SearchOut :=
  let rows :=
    (db.data_search_idx.filter (fun r => ftsTermMatch q r.2)).flatMap
      (fun s => (db.hash_index.filter (fun i => decide (i.1 = s.1))).map (fun i => (s.2, i.2)))
  let sorted := (sortPairs (rows.map (fun p => (p.2, p.1)))).map (fun p => (p.2, p.1))
  (groupMatches sorted []).map (fun g => ⟨q, rows.length, g⟩)

/-! ## The declarative where-clause engine -/

/-- A table row, as column-name/value pairs. -/
abbrev Row := List (String × String)

/-- Project one column of a row. -/
def rowGet (r : Row) (c : String) : Option String :=
  (r.find? (fun p => decide (p.1 = c))).map (fun p => p.2)

/-- The `value` field of a where clause: a scalar or a list (for `IN`). -/
inductive WhereVal where
  | vstr (s : String)
  | vlist (l : List String)

/-- A `where` triple `{column, operator, value}`. -/
structure WhereClause where
  column : String
  op : String
  value : WhereVal

/-- ASCII upper-casing (model of Python `str.upper` on operator names). -/
def upperAscii (s : String) : String :=
  String.mk (s.data.map (fun c => if decide ('a' ≤ c) && decide (c ≤ 'z') then Char.ofNat (c.toNat - 32) else c))

/-- Model of `Repository._build_where_clause` combined with SQL evaluation
of the produced condition on one row: `IN` with an empty (or non-list)
value compiles to the always-false `0=1`; otherwise `IN` is membership,
`=` is equality and `LIKE` the pattern matcher. -/
def wherePred (w : WhereClause) (r : Row) : Bool :=
  if upperAscii w.op = "IN" then
    match w.value with
    | .vlist [] => false
    | .vlist vs =>
      match rowGet r w.column with
      | some x => vs.contains x
      | none => false
    | .vstr _ => false
  else
    match w.value, rowGet r w.column with
    | .vstr v, some x =>
      if w.op = "=" then decide (x = v)
      else if upperAscii w.op = "LIKE" then strLike v x
      else false
    | _, _ => false

/-- The rows a `QUERY` request retains before projection. -/
def queryFilter (rows : List Row) (w : Option WhereClause) : List Row :=
  rows.filter (fun r => match w with | some wc => wherePred wc r | none => true)

/-- A `DELETE` request: the remaining rows and the affected count. -/
def deleteRows (rows : List Row) (w : Option WhereClause) : List Row × Nat :=
  let kept := rows.filter (fun r => match w with | some wc => !wherePred wc r | none => false)
  (kept, rows.length - kept.length)

/-! ## The breadth-first path finder -/

/-- Outcome of the bounded breadth-first loop of
`find_path_between_fragments`: a found path (reversed segments), queue
exhaustion ("no path found"), or running out of fuel. -/
inductive BfsOut where
  | found (path : List String)
  | notFound
  | outOfFuel
deriving DecidableEq

/-- The rows `repo.execute` returns for the upward query:
`(parent_hash, child_key)` of every `hash_graph` row with `child_hash = c`. -/
def parentRowsOf (gr : List (String × String × String)) (c : String) :
    List (String × String) :=
  (gr.filter (fun r => decide (r.2.2 = c))).map (fun r => (r.1, r.2.1))

/-- The row loop of the breadth-first search: enqueue each unvisited
parent, marking it visited immediately, with its path segment appended. -/
def pushParents (path : List String) :
    List (String × String) → Finset String → List (String × List String) × Finset String
  | [], v => ([], v)
  | (p, k) :: rows, v =>
    if p ∈ v then pushParents path rows v
    else
      let seg := if isDigits k then "[" ++ k ++ "]" else "." ++ k
      let r := pushParents path rows (insert p v)
      ((p, path ++ [seg]) :: r.1, r.2)

/-- The breadth-first loop of `find_path_between_fragments`
(`src/kitsugi/analysis.py`), with explicit fuel bounding the number of
loop iterations. -/
def findPathAux (gr : List (String × String × String)) (ph : String) :
    Nat → List (String × List String) → Finset String → BfsOut
  | 0, _, _ => .outOfFuel
  | _ + 1, [], _ => .notFound
  | fuel + 1, (cur, path) :: rest, visited =>
    if cur = ph then .found path
    else
      let st := pushParents path (parentRowsOf gr cur) visited
      findPathAux gr ph fuel (rest ++ st.1) st.2

/-- Every fingerprint the search can ever enqueue: the start hash plus all
`parent_hash` values of `hash_graph`. -/
def bfsUniverse (gr : List (String × String × String)) (ch : String) : Finset String :=
  insert ch (gr.map (fun r => r.1)).toFinset

/-- Model of `find_path_between_fragments(repo, parent_hash, child_hash)`:
run the breadth-first loop from the child with fuel that theorem
`c10_find_path_terminates` proves sufficient, and format a found path the
way the source prints it. -/
def find_path_between_fragments (gr : List (String × String × String))
    (ph ch : String) : Option String :=
  match findPathAux gr ph (2 * (bfsUniverse gr ch).card + 2) [(ch, [])] {ch} with
  | .found path => some ("." ++ String.join path.reverse)
  | _ => none

/-! ## Claim C9 -/

/-- C9: for every QUERY or DELETE request whose where clause uses operator
`IN` with an empty value list, the Repository evaluates the condition as
false — the query retains no rows and the delete removes none — and no
error is raised (`_build_where_clause` compiles the clause to the
always-false `0=1` instead of emitting invalid SQL). -/
theorem c9_empty_in_matches_nothing (rows : List Row) (col : String) :
    queryFilter rows (some ⟨col, "IN", .vlist []⟩) = [] ∧
      deleteRows rows (some ⟨col, "IN", .vlist []⟩) = (rows, 0) := by
  have hup : upperAscii "IN" = "IN" := by decide
  have hp : ∀ r : Row, wherePred ⟨col, "IN", .vlist []⟩ r = false := by
    intro r
    simp [wherePred, hup]
  refine ⟨?_, ?_⟩
  · simp [queryFilter, hp]
  · simp [deleteRows, hp, List.filter_true]

/-! ## Claim C1 -/

/-- C1 (code bug evaluated at the failing input): hashing the document
`[true, 1]` assigns both leaves the fingerprint `sha("true")`, because the
memo cache keys primitives by Python equality, under which `True == 1`.
Their canonical serializations `"true"` and `"1"` differ, so fingerprint
equality does not imply byte-equality of canonical serializations.  This
holds for every hash function `sha`. -/
theorem c1_memo_conflates_true_and_one (sha : String → String) :
    (calculate_canonical_hash sha (.arr [.bool true, .int 1]) "f").events =
      [⟨sha ("[ " ++ (sha "true" ++ (", " ++ (sha "true" ++ " ]")))),
          .arr [.bool true, .int 1], "f:.", false, none, none⟩,
        ⟨sha "true", .bool true, "f:..[0]", true,
          some (sha ("[ " ++ (sha "true" ++ (", " ++ (sha "true" ++ " ]"))))), some "0"⟩,
        ⟨sha "true", .int 1, "f:..[1]", true,
          some (sha ("[ " ++ (sha "true" ++ (", " ++ (sha "true" ++ " ]"))))), some "1"⟩] ∧
      jsonDumpsPrim (.bool true) ≠ jsonDumpsPrim (.int 1) := by
  refine ⟨?_, by decide⟩
  simp [calculate_canonical_hash, jsize, jsizeA, jsizeO, hashRec, hashArrChildren, memoFind, pyKey,
    jsonDumpsPrim, natStr, decDigits, decChar, List.find?, intercalate_cons₂,
    intercalate_go_eq, intercalate_go_nil, String.intercalate,
    JsonVal.isComposite, String.append_assoc]

/-! ## Claim C4 -/

/-- C4 counterexample: for the document whose root is the primitive `7`,
`calculate_canonical_hash` makes no visitor call at all — not the exactly
one call (with `is_primitive=true` and no parent) that the claim
requires. -/
theorem c4_primitive_root_never_visited :
    (calculate_canonical_hash (fun s => s) (.int 7) "f").events = [] ∧
      (calculate_canonical_hash (fun s => s) (.int 7) "f").events.length ≠ 1 := by
  constructor <;>
    simp [calculate_canonical_hash, jsize, jsizeA, jsizeO, hashRec, memoFind, List.find?]

/-- C4 amended: for every document whose root is a primitive, the visitor
is never invoked — primitives are only ever visited through a parent
container, and the root has none. -/
theorem c4_primitive_root_zero_visits (sha : String → String) (fp : String)
    (v : JsonVal) (h : v.isComposite = false) :
    (calculate_canonical_hash sha v fp).events = [] := by
  cases v <;> simp_all [calculate_canonical_hash, jsize, jsizeA, jsizeO, hashRec, memoFind, List.find?,
    JsonVal.isComposite]

/-- Witness for `c4_primitive_root_zero_visits` at the primitive root `7`. -/
theorem c4_primitive_root_zero_visits_witness :
    (JsonVal.int 7).isComposite = false ∧
      (calculate_canonical_hash (fun s => "#" ++ s) (.int 7) "g").events = [] :=
  ⟨by decide, c4_primitive_root_zero_visits (fun s => "#" ++ s) "g" (.int 7) (by decide)⟩

/-! ## Claim C2 -/

theorem hashObjChildren_inputs_eq (recur : JsonVal → String → Memo → HashOut)
    (fp path : String) :
    ∀ (l : List (String × JsonVal)) (m : Memo),
      (hashObjChildren recur fp path l m).inputs =
        (hashObjChildren recur fp path l m).info.map (fun ci => ci.key ++ ":" ++ ci.hash) := by
  intro l
  induction l with
  | nil => intro m; simp [hashObjChildren]
  | cons p rest ih =>
    intro m
    obtain ⟨k, v⟩ := p
    simp [hashObjChildren, ih]

theorem hashObjChildren_keys_eq (recur : JsonVal → String → Memo → HashOut)
    (fp path : String) :
    ∀ (l : List (String × JsonVal)) (m : Memo),
      (hashObjChildren recur fp path l m).info.map ChildInfo.key = l.map Prod.fst := by
  intro l
  induction l with
  | nil => intro m; simp [hashObjChildren]
  | cons p rest ih =>
    intro m
    obtain ⟨k, v⟩ := p
    simp [hashObjChildren, ih]

theorem hashArrChildren_inputs_eq (recur : JsonVal → String → Memo → HashOut)
    (fp path : String) :
    ∀ (l : List JsonVal) (i : Nat) (m : Memo),
      (hashArrChildren recur fp path i l m).inputs =
        (hashArrChildren recur fp path i l m).info.map ChildInfo.hash := by
  intro l
  induction l with
  | nil => intro i m; simp [hashArrChildren]
  | cons v rest ih =>
    intro i m
    simp [hashArrChildren, ih]

/-- C2: canonical byte strings.  For an object node (whose members do not
use the reserved name `_sha256_hash`), the hashed byte string is
`"{ "` followed by the members `key:childFingerprint` — in sorted
lexicographic code-point key order, ranging exactly over the object's
members — joined by `", "`, followed by `" }"`; the empty object hashes
exactly the bytes `"{  }"` (two spaces).  For an array node the string is
`"[ "` ++ the child fingerprints in index order joined by `", "` ++ `" ]"`.
The node's fingerprint is `sha` of that string, where `sha` abstracts
lowercase-hex SHA-256. -/
theorem c2_canonical_byte_strings (sha : String → String) (fp path : String)
    (fuel : Nat) (kvs : List (String × JsonVal)) (xs : List JsonVal) (m : Memo)
    (hnk : ∀ p ∈ kvs, p.1 ≠ "_sha256_hash") :
    ((hashRec sha fp (fuel + 1) (.obj kvs) path m).hash =
        sha ("\x7b " ++ String.intercalate ", "
          ((hashObjChildren (hashRec sha fp fuel) fp path (sortPairs kvs) m).info.map
            (fun ci => ci.key ++ ":" ++ ci.hash)) ++ " \x7d") ∧
      List.Pairwise (fun a b : String => strLe a b = true)
        ((hashObjChildren (hashRec sha fp fuel) fp path (sortPairs kvs) m).info.map
          ChildInfo.key) ∧
      List.Perm
        ((hashObjChildren (hashRec sha fp fuel) fp path (sortPairs kvs) m).info.map
          ChildInfo.key)
        (kvs.map Prod.fst)) ∧
    (hashRec sha fp (fuel + 1) (.obj []) path m).hash = sha "\x7b  \x7d" ∧
    (hashRec sha fp (fuel + 1) (.arr xs) path m).hash =
      sha ("[ " ++ String.intercalate ", "
        ((hashArrChildren (hashRec sha fp fuel) fp path 0 xs m).info.map
          ChildInfo.hash) ++ " ]") := by
  have hf : kvs.filter (fun p => decide (p.1 ≠ "_sha256_hash")) = kvs := by
    apply List.filter_eq_self.mpr
    intro p hp
    exact decide_eq_true (hnk p hp)
  refine ⟨⟨?_, ?_, ?_⟩, ?_, ?_⟩
  · simp only [hashRec, hf, hashObjChildren_inputs_eq]
  · rw [hashObjChildren_keys_eq]
    have := sortPairs_sorted (α := JsonVal) kvs
    exact List.pairwise_map.mpr this
  · rw [hashObjChildren_keys_eq]
    exact (sortPairs_perm kvs).map Prod.fst
  · have : ("\x7b " ++ String.intercalate ", " ([] : List String) ++ " \x7d") = "\x7b  \x7d" := by
      decide
    simp [hashRec, hashObjChildren, sortPairs, List.filter, this]
  · simp only [hashRec, hashArrChildren_inputs_eq]

/-- Witness for `c2_canonical_byte_strings` on the object
`{"b": 2, "a": 1}` (with the empty-object conjunct spelled out). -/
theorem c2_canonical_byte_strings_witness :
    (∀ p ∈ [("b", JsonVal.int 2), ("a", JsonVal.int 1)], p.1 ≠ "_sha256_hash") ∧
      (hashRec (fun s => "#" ++ s) "f" 3 (.obj []) "." []).hash = "#\x7b  \x7d" := by
  refine ⟨by simp, ?_⟩
  have h := c2_canonical_byte_strings (fun s => "#" ++ s) "f" "." 2
    [("b", JsonVal.int 2), ("a", JsonVal.int 1)] [.bool true] [] (by simp)
  exact h.2.1

/-! ## Claim C10 -/

theorem pushParents_card (U : Finset String) (path : List String) :
    ∀ (rows : List (String × String)) (v : Finset String),
      (∀ r ∈ rows, r.1 ∈ U) →
      (U \ (pushParents path rows v).2).card + (pushParents path rows v).1.length
        = (U \ v).card := by
  intro rows
  induction rows with
  | nil => intro v _; simp [pushParents]
  | cons r rows ih =>
    intro v hU
    obtain ⟨p, k⟩ := r
    by_cases hp : p ∈ v
    · simp only [pushParents, if_pos hp]
      exact ih v (fun r hr => hU r (by simp [hr]))
    · simp only [pushParents, if_neg hp, List.length_cons]
      have hpU : p ∈ U := hU (p, k) (by simp)
      have hmem : p ∈ U \ v := Finset.mem_sdiff.mpr ⟨hpU, hp⟩
      have hins : U \ insert p v = (U \ v).erase p := by
        ext x
        simp only [Finset.mem_sdiff, Finset.mem_insert, Finset.mem_erase]
        tauto
      have hcard : ((U \ v).erase p).card = (U \ v).card - 1 :=
        Finset.card_erase_of_mem hmem
      have hpos : 1 ≤ (U \ v).card := Finset.card_pos.mpr ⟨p, hmem⟩
      have hrec := ih (insert p v) (fun r hr => hU r (by simp [hr]))
      rw [hins, hcard] at hrec
      omega

theorem findPathAux_fuel_sufficient (gr : List (String × String × String)) (ph ch : String) :
    ∀ (n : Nat) (q : List (String × List String)) (v : Finset String),
      2 * ((bfsUniverse gr ch) \ v).card + q.length + 1 ≤ n →
      findPathAux gr ph n q v ≠ .outOfFuel := by
  intro n
  induction n with
  | zero => intro q v h; omega
  | succ n ih =>
    intro q v h
    cases q with
    | nil => simp [findPathAux]
    | cons item rest =>
      obtain ⟨cur, path⟩ := item
      by_cases hc : cur = ph
      · simp [findPathAux, hc]
      · simp only [findPathAux, if_neg hc]
        apply ih
        have hU : ∀ r ∈ parentRowsOf gr cur, r.1 ∈ bfsUniverse gr ch := by
          intro r hr
          simp only [parentRowsOf, List.mem_map, List.mem_filter] at hr
          obtain ⟨x, ⟨hx, _⟩, rfl⟩ := hr
          simp only [bfsUniverse, Finset.mem_insert, List.mem_toFinset, List.mem_map]
          exact Or.inr ⟨x, hx, rfl⟩
        have hcard := pushParents_card (bfsUniverse gr ch) path (parentRowsOf gr cur) v hU
        simp only [List.length_append, List.length_cons] at h ⊢
        omega

/-- C10: for every finite `hash_graph` relation — cyclic ones included —
and any pair of fingerprints, the breadth-first loop of
`find_path_between_fragments` terminates: the visited set lets each
fingerprint be enqueued at most once, so fuel `2·|universe| + 2` (with the
universe the start hash plus all parent hashes) is never exhausted. -/
theorem c10_find_path_terminates (gr : List (String × String × String)) (ph ch : String) :
    findPathAux gr ph (2 * (bfsUniverse gr ch).card + 2) [(ch, [])] {ch} ≠ .outOfFuel := by
  apply findPathAux_fuel_sufficient gr ph ch
  have hsub : (bfsUniverse gr ch) \ {ch} ⊆ bfsUniverse gr ch := Finset.sdiff_subset
  have hle := Finset.card_le_card hsub
  simp only [List.length_cons, List.length_nil]
  omega

/-! ## Claim C5 -/

theorem docRowsFrom_snd : ∀ (enum : List String) (n : Nat),
    (docRowsFrom n enum).map (fun r => r.2) = enum := by
  intro enum
  induction enum with
  | nil => intro n; simp [docRowsFrom]
  | cons h rest ih => intro n; simp [docRowsFrom, ih]

theorem docRowsFrom_name_mem : ∀ (enum : List String) (n : Nat) (x : String),
    x ∈ (docRowsFrom n enum).map Prod.fst → ∃ m, n ≤ m ∧ x = "doc_" ++ natStr m := by
  intro enum
  induction enum with
  | nil => intro n x hx; simp [docRowsFrom] at hx
  | cons h rest ih =>
    intro n x hx
    simp only [docRowsFrom, List.map_cons, List.mem_cons] at hx
    rcases hx with rfl | hx
    · exact ⟨n, le_rfl, rfl⟩
    · obtain ⟨m, hm, rfl⟩ := ih (n + 1) x hx
      exact ⟨m, by omega, rfl⟩

theorem docRowsFrom_names_nodup : ∀ (enum : List String) (n : Nat),
    ((docRowsFrom n enum).map Prod.fst).Nodup := by
  intro enum
  induction enum with
  | nil => intro n; simp [docRowsFrom]
  | cons h rest ih =>
    intro n
    simp only [docRowsFrom, List.map_cons, List.nodup_cons]
    refine ⟨?_, ih (n + 1)⟩
    intro hmem
    obtain ⟨m, hm, heq⟩ := docRowsFrom_name_mem rest (n + 1) _ hmem
    have : natStr n = natStr m := by
      have hd := congrArg String.data heq
      simp only [String.data_append] at hd
      exact String.ext (List.append_cancel_left hd)
    have := natStr_inj this
    omega

theorem docsInsert_ok : ∀ (rows table : List (String × String)),
    (∀ r ∈ rows, r.1 ∉ table.map Prod.fst ∧ r.2 ∉ table.map (fun p => p.2)) →
    (rows.map Prod.fst).Nodup → (rows.map (fun p => p.2)).Nodup →
    docsInsert table rows = .ok (table ++ rows) := by
  intro rows
  induction rows with
  | nil => intro table _ _ _; simp [docsInsert]
  | cons r rest ih =>
    intro table hfree hn1 hn2
    obtain ⟨nm, hs⟩ := r
    have hf := hfree (nm, hs) (by simp)
    have hc1 : (table.map Prod.fst).contains nm = false := by
      simpa [List.contains] using hf.1
    have hc2 : (table.map (fun p => p.2)).contains hs = false := by
      simpa [List.contains] using hf.2
    simp only [docsInsert, hc1, hc2, Bool.or_self, Bool.false_eq_true, if_false]
    have hrest := ih (table ++ [(nm, hs)]) ?_ (by simpa using hn1.of_cons) (by simpa using hn2.of_cons)
    · rw [hrest]
      simp
    · intro r hr
      have hfr := hfree r (by simp [hr])
      have h1 : r.1 ≠ nm := by
        intro hcon
        have : nm ∈ rest.map Prod.fst := by
          simpa [hcon] using List.mem_map_of_mem Prod.fst hr
        simp only [List.map_cons, List.nodup_cons] at hn1
        exact hn1.1 this
      have h2 : r.2 ≠ hs := by
        intro hcon
        have : hs ∈ rest.map (fun p => p.2) := by
          simpa [hcon] using List.mem_map_of_mem (fun p : String × String => p.2) hr
        simp only [List.map_cons, List.nodup_cons] at hn2
        exact hn2.1 this
      constructor
      · simp only [List.map_append, List.mem_append]
        rintro (hm | hm)
        · exact hfr.1 hm
        · simp at hm
          exact h1 hm
      · simp only [List.map_append, List.mem_append]
        rintro (hm | hm)
        · exact hfr.2 hm
        · simp at hm
          exact h2 hm

/-- C5 counterexample: a store with two ingested root fragments `"aa"` and
`"bb"`, whose true-root set the Python runtime may legitimately enumerate
as `["bb", "aa"]` (set iteration order is hash-seed dependent; the code
never sorts).  The splicer then names `doc_1 ↦ "bb"` and `doc_2 ↦ "aa"`,
which is not ascending fingerprint order, refuting the claimed
deterministic ascending labelling. -/
theorem c5_names_not_ascending :
    ValidEnum ⟨[("aa", "f1:."), ("bb", "f2:.")], [], [], [], []⟩ ["bb", "aa"] ∧
    find_and_splice_shredded_files ⟨[("aa", "f1:."), ("bb", "f2:.")], [], [], [], []⟩
        ["bb", "aa"] =
      .ok (⟨[("aa", "f1:."), ("bb", "f2:.")], [], [],
        [("doc_1", "bb"), ("doc_2", "aa")], []⟩, true) ∧
    strLe "bb" "aa" = false := by
  refine ⟨⟨by decide, ?_⟩, rfl, by decide⟩
  intro x
  constructor
  · intro hx
    simp only [List.mem_cons, List.not_mem_nil, or_false] at hx
    rcases hx with rfl | rfl
    · decide
    · decide
  · intro hx
    have hcand : spliceCandidates ⟨[("aa", "f1:."), ("bb", "f2:.")], [], [], [], []⟩
        = ["aa", "bb"] := rfl
    simp only [isTrueRoot, hcand, Bool.and_eq_true] at hx
    have hmem2 : x ∈ ["aa", "bb"] := by
      have := hx.1
      simpa [List.contains] using this
    simp only [List.mem_cons, List.not_mem_nil, or_false] at hmem2
    rcases hmem2 with rfl | rfl
    · simp
    · simp

/-- C5 amended: whenever at least one candidate fragment exists, the
splicer replaces the whole `reconstructed_docs` relation with exactly one
row per true root (candidates minus contained fingerprints), named
`doc_1`, `doc_2`, … in the order the runtime enumerates the true-root set —
which need not be ascending fingerprint order — and commits; with no
candidates it returns early, leaving the relation untouched and not
committing. -/
theorem c5_splice_one_row_per_true_root (db : DB) (enum : List String)
    (henum : ValidEnum db enum) :
    ((spliceCandidates db).isEmpty = false →
      find_and_splice_shredded_files db enum =
        .ok (⟨db.hash_index, db.hash_graph, db.hash_to_data, docRowsFrom 1 enum,
          db.data_search_idx⟩, true) ∧
      (docRowsFrom 1 enum).map (fun r => r.2) = enum ∧
      (∀ x : String, (∃ nm, (nm, x) ∈ docRowsFrom 1 enum) ↔ isTrueRoot db x = true)) ∧
    ((spliceCandidates db).isEmpty = true →
      find_and_splice_shredded_files db enum = .ok (db, false)) := by
  obtain ⟨hnd, hmem⟩ := henum
  have hsnd := docRowsFrom_snd enum 1
  constructor
  · intro hne
    have hins : docsInsert [] (docRowsFrom 1 enum) = .ok ([] ++ docRowsFrom 1 enum) := by
      apply docsInsert_ok
      · intro r _
        simp
      · exact docRowsFrom_names_nodup enum 1
      · rw [hsnd]; exact hnd
    refine ⟨?_, hsnd, ?_⟩
    · simp only [find_and_splice_shredded_files, hne, Bool.false_eq_true, if_false,
        hins, List.nil_append]
    · intro x
      have hiff : (∃ nm, (nm, x) ∈ docRowsFrom 1 enum) ↔ x ∈ enum := by
        constructor
        · rintro ⟨nm, hm⟩
          have := List.mem_map_of_mem (fun r : String × String => r.2) hm
          rwa [hsnd] at this
        · intro hm
          rw [← hsnd] at hm
          obtain ⟨⟨nm, y⟩, hm', hy⟩ := List.mem_map.mp hm
          refine ⟨nm, ?_⟩
          have : y = x := hy
          rwa [this] at hm'
      rw [hiff]
      exact hmem x
  · intro hemp
    simp only [find_and_splice_shredded_files, hemp, if_true]

/-- Witness for `c5_splice_one_row_per_true_root` at a store with a single
root fragment. -/
theorem c5_splice_one_row_per_true_root_witness :
    ValidEnum ⟨[("r1", "a:.")], [], [], [], []⟩ ["r1"] ∧
      find_and_splice_shredded_files ⟨[("r1", "a:.")], [], [], [], []⟩ ["r1"] =
        .ok (⟨[("r1", "a:.")], [], [], [("doc_1", "r1")], []⟩, true) := by
  have hv : ValidEnum ⟨[("r1", "a:.")], [], [], [], []⟩ ["r1"] := by
    refine ⟨by decide, ?_⟩
    intro x
    constructor
    · intro hx
      rw [List.mem_singleton] at hx
      subst hx; decide
    · intro hx
      have hcand : spliceCandidates ⟨[("r1", "a:.")], [], [], [], []⟩ = ["r1"] := rfl
      simp only [isTrueRoot, hcand, Bool.and_eq_true] at hx
      have : x ∈ ["r1"] := by
        have := hx.1
        simpa [List.contains] using this
      rw [List.mem_singleton] at this
      simp [this]
  refine ⟨hv, ?_⟩
  have h := (c5_splice_one_row_per_true_root ⟨[("r1", "a:.")], [], [], [], []⟩ ["r1"] hv).1
    (by decide)
  exact h.1

/-! ## Claim C6 -/

/-- C6 (spec-modelled): whenever `run_asset_processor` has ingested at
least one file — the write visitor's index batch is non-empty — it clears
all four primary relations, bulk-inserts the visitor's three batches into
`hash_index`, `hash_graph` and `hash_to_data` (the latter keyed on `hash`),
rebuilds the full-text index from `hash_to_data`, and commits. -/
theorem c6_processor_full_rebuild (db : DB) (v : WriteCtx) (h : v.index_data ≠ []) :
    run_asset_processor_save db v =
      (⟨v.index_data, v.graph_data, insertIgnoreKeyed [] v.primitive_data, [],
        insertIgnoreKeyed [] v.primitive_data⟩, true) := by
  have h' : v.index_data.isEmpty = false := by
    simpa [List.isEmpty_iff] using h
  simp [run_asset_processor_save, save_processed_data, clear_all_data, h']

/-- Witness for `c6_processor_full_rebuild` at a one-row visitor batch. -/
theorem c6_processor_full_rebuild_witness :
    ([(("h1" : String), ("a:." : String))] ≠ ([] : List (String × String))) ∧
      run_asset_processor_save emptyDB ⟨[("h1", "a:.")], [], [("h1", "7")]⟩ =
        (⟨[("h1", "a:.")], [], [("h1", "7")], [], [("h1", "7")]⟩, true) := by
  refine ⟨by decide, ?_⟩
  exact c6_processor_full_rebuild emptyDB ⟨[("h1", "a:.")], [], [("h1", "7")]⟩ (by decide)

/-! ## Claim C8 -/

/-- C8 counterexample: ingesting `{"msg": "hello world"}` from file
`a.json` (with an explicit injective stand-in for SHA-256) and searching
`hello` does return `total_matches = 1` with one entry holding
`"hello world"` — but the entry's key is `"a.json:..msg"`, not the claimed
`"a.json:.msg"`: the hasher builds child locations as
`file + ":" + parentPath + "." + key` and the root's path is already `"."`,
so a root member's location carries a double dot. -/
theorem c8_search_location_double_dot :
    run_search (ingestOne (fun s => "#" ++ s) "a.json"
        (.obj [("msg", .str "hello world")])).1 "hello" =
      some ⟨"hello", 1, [("a.json:..msg", [.str "hello world"])]⟩ ∧
    ("a.json:..msg" : String) ≠ "a.json:.msg" := by
  refine ⟨?_, by decide⟩
  have hm : ftsTermMatch "hello" "\"hello world\"" = true := by decide
  have hp : parseScalar "\"hello world\"" = some (.str "hello world") := rfl
  have hdump : jsonDumpsPrim (.str "hello world") = "\"hello world\"" := rfl
  have hd : decide ((("#" ++ ("\x7b " ++ ("msg:" ++ (("#" ++ "\"hello world\"") ++ " \x7d")))) : String)
      = "#" ++ "\"hello world\"") = false := by decide
  simp [ingestOne, calculate_canonical_hash, jsize, jsizeA, jsizeO, hashRec, hashObjChildren, sortPairs, keyInsert,
    memoFind, List.find?, pyKey, hdump, buildWriteCtx, visitStep,
    run_asset_processor_save, save_processed_data, clear_all_data, insertIgnoreKeyed, emptyDB,
    run_search, hm, hp, hd, groupMatches, appendAt, String.append_assoc, intercalate_go_nil,
    intercalate_go_eq, String.intercalate]

/-- C8 amended: after ingesting a file containing `{"msg": "hello world"}`,
searching `hello` returns `total_matches = 1` and `matches_by_location`
containing exactly one entry, keyed by the location `"<file>:..msg"` the
hasher records for the member (root path `"."` plus `".msg"`), whose value
list contains the string `"hello world"`.  The hypothesis is the one
collision-freedom instance the run relies on: the member's primitive
serialization and the root's canonical object string hash differently. -/
theorem c8_search_hello_world (sha : String → String) (f : String)
    (hne : sha "\"hello world\"" ≠ sha ("\x7b " ++ ("msg:" ++ (sha "\"hello world\"" ++ " \x7d")))) :
    run_search (ingestOne sha f (.obj [("msg", .str "hello world")])).1 "hello" =
      some ⟨"hello", 1, [(f ++ ":..msg", [.str "hello world"])]⟩ := by
  have hm : ftsTermMatch "hello" "\"hello world\"" = true := by decide
  have hp : parseScalar "\"hello world\"" = some (.str "hello world") := rfl
  have hdump : jsonDumpsPrim (.str "hello world") = "\"hello world\"" := rfl
  have hd : decide ((sha ("\x7b " ++ ("msg:" ++ (sha "\"hello world\"" ++ " \x7d"))))
      = sha "\"hello world\"") = false := decide_eq_false (Ne.symm hne)
  simp [ingestOne, calculate_canonical_hash, jsize, jsizeA, jsizeO, hashRec, hashObjChildren, sortPairs, keyInsert,
    memoFind, List.find?, pyKey, hdump, buildWriteCtx, visitStep,
    run_asset_processor_save, save_processed_data, clear_all_data, insertIgnoreKeyed, emptyDB,
    run_search, hm, hp, hd, groupMatches, appendAt, String.append_assoc, intercalate_go_nil,
    intercalate_go_eq, String.intercalate]

/-- Witness for `c8_search_hello_world` with a concrete injective hash
stand-in and file `b.json`. -/
theorem c8_search_hello_world_witness :
    ((fun s => "#" ++ s) "\"hello world\"" ≠
      (fun s => "#" ++ s) ("\x7b " ++ ("msg:" ++ ((fun s => "#" ++ s) "\"hello world\"" ++ " \x7d")))) ∧
      run_search (ingestOne (fun s => "#" ++ s) "b.json"
          (.obj [("msg", .str "hello world")])).1 "hello" =
        some ⟨"hello", 1, [("b.json" ++ ":..msg", [.str "hello world"])]⟩ :=
  ⟨by decide, c8_search_hello_world (fun s => "#" ++ s) "b.json" (by decide)⟩

/-! ## Claim C3 -/

set_option maxHeartbeats 1600000 in
/-- C3 (code bug evaluated at the failing input): ingest the document
`[true, 1]` and reconstruct its root.  Because the hasher's memo cache
conflates `True` and `1` (Python equality), both array slots carry the
fingerprint of `true`, a single `hash_to_data` row survives the keyed
insert, and reconstruction returns `[true, true]` — not a value
structurally equal to the ingested document.  The two hypotheses are the
collision-freedom instances the run relies on (the root's canonical string
hashes to a truthy value different from the leaf fingerprint). -/
theorem c3_roundtrip_fails_on_true_one (sha : String → String)
    (hne : sha ("[ " ++ (sha "true" ++ (", " ++ (sha "true" ++ " ]")))) ≠ "")
    (hneq : sha ("[ " ++ (sha "true" ++ (", " ++ (sha "true" ++ " ]")))) ≠ sha "true") :
    reconstruct_from_hash (ingestOne sha "f" (.arr [.bool true, .int 1])).1 9
        (sha ("[ " ++ (sha "true" ++ (", " ++ (sha "true" ++ " ]"))))) [] =
      .ok (.arr [.bool true, .bool true],
        [(sha "true", .bool true),
          (sha ("[ " ++ (sha "true" ++ (", " ++ (sha "true" ++ " ]")))),
            .arr [.bool true, .bool true])]) ∧
    JsonVal.arr [.bool true, .bool true] ≠ .arr [.bool true, .int 1] := by
  have h0 : isDigits "0" = true := by decide
  have h1 : isDigits "1" = true := by decide
  have hs0 : strToNat "0" = 0 := by decide
  have hs1 : strToNat "1" = 1 := by decide
  have hpt : parseScalar "true" = some (.bool true) := rfl
  have hdq : decide ((sha ("[ " ++ (sha "true" ++ (", " ++ (sha "true" ++ " ]"))))) = sha "true") = false :=
    decide_eq_false hneq
  refine ⟨?_, by simp⟩
  simp [ingestOne, calculate_canonical_hash, jsize, jsizeA, jsizeO, hashRec, hashArrChildren, memoFind, List.find?,
    pyKey, jsonDumpsPrim, natStr, decDigits, decChar, buildWriteCtx, visitStep,
    run_asset_processor_save, save_processed_data, clear_all_data, insertIgnoreKeyed, emptyDB,
    reconstruct_from_hash, reconKids, placeArr, buildObj, dictInsert, rmemoFind,
    childrenOf, dataOf, sentinel, h0, h1, hs0, hs1, hpt, hdq, hne, hneq, String.append_assoc,
    intercalate_go_nil, intercalate_go_eq, String.intercalate, List.replicate]

/-- Witness for `c3_roundtrip_fails_on_true_one` with a concrete injective
hash stand-in. -/
theorem c3_roundtrip_fails_on_true_one_witness :
    (((fun s => "#" ++ s) ("[ " ++ ((fun s => "#" ++ s) "true" ++ (", " ++ ((fun s => "#" ++ s) "true" ++ " ]")))) : String) ≠ "") ∧
      reconstruct_from_hash (ingestOne (fun s => "#" ++ s) "f" (.arr [.bool true, .int 1])).1 9
          ((fun s => "#" ++ s) ("[ " ++ ((fun s => "#" ++ s) "true" ++ (", " ++ ((fun s => "#" ++ s) "true" ++ " ]"))))) [] =
        .ok (.arr [.bool true, .bool true],
          [((fun s => "#" ++ s) "true", .bool true),
            ((fun s => "#" ++ s) ("[ " ++ ((fun s => "#" ++ s) "true" ++ (", " ++ ((fun s => "#" ++ s) "true" ++ " ]")))),
              .arr [.bool true, .bool true])]) :=
  ⟨by decide,
    (c3_roundtrip_fails_on_true_one (fun s => "#" ++ s) (by decide) (by decide)).1⟩

/-! ## Claim C7 -/

/-- C7 counterexample: a repository state whose single `hash_graph` row
gives `"p"` the all-digit child key `"5"`.  The reconstructor builds a
one-slot list and assigns index 5 — `reconstructed_list[int(key)]` raises
`IndexError`, so reconstruction does not return a value on every
repository state. -/
theorem c7_index_error_state :
    reconstruct_from_hash ⟨[], [("p", "5", "c")], [], [], []⟩ 9 "p" [] = .error .index := by
  have h5 : isDigits "5" = true := by decide
  have hs5 : strToNat "5" = 5 := by decide
  have hpc : decide (("p" : String) = "c") = false := by decide
  simp [reconstruct_from_hash, reconKids, placeArr, buildObj, rmemoFind, childrenOf,
    dataOf, sentinel, List.find?, h5, hs5, hpc, List.replicate]

/-- Whether a graph row's all-digit child keys stay in range of the row
count of its parent — the condition under which the reconstructor's list
branch cannot raise `IndexError`. -/
def childKeysInRange (db : DB) : Prop :=
  ∀ r ∈ db.hash_graph,
    ((childrenOf db r.1).all fun p => isDigits p.1) = true →
      ∀ p ∈ childrenOf db r.1, strToNat p.1 < (childrenOf db r.1).length

/-- Whether every stored primitive value parses back (the condition under
which `json.loads` cannot raise during reconstruction). -/
def storedDataParses (db : DB) : Prop :=
  ∀ r ∈ db.hash_to_data, (parseScalar r.2).isSome = true

/-- Whether every `hash_graph` child key is pure ASCII.  On such keys the
ASCII digit test `isDigits` coincides with Python's `str.isdigit` (which
additionally accepts non-ASCII Unicode digits such as "٣") and `strToNat`
with `int(key)`, so the reconstructor model below takes the same branch
as the program on every state satisfying this predicate. -/
def childKeysAscii (db : DB) : Prop :=
  ∀ r ∈ db.hash_graph, (r.2.1).data.all (fun c => decide (c.toNat < 128)) = true

theorem mem_childrenOf {db : DB} {h : String} {p : String × String}
    (hp : p ∈ childrenOf db h) : (h, p.1, p.2) ∈ db.hash_graph := by
  simp only [childrenOf, List.mem_map, List.mem_filter, decide_eq_true_eq] at hp
  obtain ⟨r, ⟨hr, hr1⟩, hr2⟩ := hp
  obtain ⟨a, bc⟩ := r
  simp only at hr1 hr2
  subst hr1
  rw [← hr2]
  simpa using hr

theorem reconKids_ok (recur : String → RMemo → Except RecErr (JsonVal × RMemo)) :
    ∀ (rows : List (String × String)) (memo : RMemo),
      (∀ p ∈ rows, ∀ m : RMemo, ∃ v m', recur p.2 m = .ok (v, m')) →
      ∃ l m', reconKids recur rows memo = .ok (l, m') ∧
        l.map Prod.fst = rows.map Prod.fst := by
  intro rows
  induction rows with
  | nil => intro memo _; exact ⟨[], memo, by simp [reconKids]⟩
  | cons p rest ih =>
    intro memo hrec
    obtain ⟨k, ch⟩ := p
    obtain ⟨v, m1, hv⟩ := hrec (k, ch) (by simp) memo
    obtain ⟨l, m', hrest, hkeys⟩ := ih m1 (fun q hq m => hrec q (by simp [hq]) m)
    exact ⟨(k, v) :: l, m', by simp [reconKids, hv, hrest], by simp [hkeys]⟩

theorem placeArr_ok :
    ∀ (pairs : List (String × JsonVal)) (acc : List JsonVal),
      (∀ p ∈ pairs, strToNat p.1 < acc.length) →
      ∃ l, placeArr acc pairs = .ok l := by
  intro pairs
  induction pairs with
  | nil => intro acc _; exact ⟨acc, by simp [placeArr]⟩
  | cons p rest ih =>
    intro acc hrange
    obtain ⟨k, v⟩ := p
    have hlt : strToNat k < acc.length := hrange (k, v) (by simp)
    have hlen : (acc.set (strToNat k) v).length = acc.length := by simp
    obtain ⟨l, hl⟩ := ih (acc.set (strToNat k) v)
      (fun q hq => by rw [hlen]; exact hrange q (by simp [hq]))
    exact ⟨l, by simp [placeArr, hlt, hl]⟩

theorem reconstruct_ok (db : DB) (rank : String → Nat)
    (hrank : ∀ r ∈ db.hash_graph, rank r.2.2 < rank r.1)
    (hrange : childKeysInRange db) (hparse : storedDataParses db) :
    ∀ (fuel : Nat) (h : String) (memo : RMemo), rank h < fuel →
      ∃ v m, reconstruct_from_hash db fuel h memo = .ok (v, m) := by
  intro fuel
  induction fuel with
  | zero => intro h memo hf; omega
  | succ fuel ih =>
    intro h memo hf
    cases hm : rmemoFind memo h with
    | some v => exact ⟨v, memo, by simp [reconstruct_from_hash, hm]⟩
    | none =>
      cases hc : (childrenOf db h).isEmpty with
      | true =>
        cases hd : dataOf db h with
        | some d =>
          have hmem : ∃ r ∈ db.hash_to_data, r.2 = d := by
            simp only [dataOf, Option.map_eq_some'] at hd
            obtain ⟨r, hr, hr2⟩ := hd
            exact ⟨r, List.mem_of_find?_eq_some hr, hr2⟩
          obtain ⟨r, hrm, hrd⟩ := hmem
          have := hparse r hrm
          rw [hrd] at this
          obtain ⟨v, hv⟩ := Option.isSome_iff_exists.mp this
          exact ⟨v, memo ++ [(h, v)], by simp [reconstruct_from_hash, hm, hc, hd, hv]⟩
        | none =>
          exact ⟨sentinel h, memo ++ [(h, sentinel h)],
            by simp [reconstruct_from_hash, hm, hc, hd]⟩
      | false =>
        have hchild : ∀ p ∈ childrenOf db h, ∀ m : RMemo,
            ∃ v m', reconstruct_from_hash db fuel p.2 m = .ok (v, m') := by
          intro p hp m
          have hrow := mem_childrenOf hp
          have hlt := hrank _ hrow
          simp only at hlt
          exact ih p.2 m (by omega)
        obtain ⟨pairs, m', hkids, hkeys⟩ :=
          reconKids_ok (reconstruct_from_hash db fuel) (childrenOf db h) memo hchild
        cases hdig : ((childrenOf db h).all fun p => isDigits p.1) with
        | true =>
          have hne : childrenOf db h ≠ [] := by
            intro hcon
            rw [hcon] at hc
            simp at hc
          obtain ⟨p0, hp0⟩ := List.exists_mem_of_ne_nil _ hne
          have hrow0 := mem_childrenOf hp0
          have hr := hrange _ hrow0
          simp only at hr
          obtain ⟨l, hpl⟩ := placeArr_ok pairs
            (List.replicate (childrenOf db h).length JsonVal.null)
            (by
              intro q hq
              rw [List.length_replicate]
              have hq1 : q.1 ∈ pairs.map Prod.fst := List.mem_map_of_mem Prod.fst hq
              rw [hkeys] at hq1
              obtain ⟨q', hq', hq'1⟩ := List.mem_map.mp hq1
              rw [← hq'1]
              exact hr hdig q' hq')
          exact ⟨.arr l, m' ++ [(h, .arr l)],
            by simp [reconstruct_from_hash, hm, hc, hdig, hkids, hpl]⟩
        | false =>
          exact ⟨.obj (buildObj [] pairs), m' ++ [(h, .obj (buildObj [] pairs))],
            by simp [reconstruct_from_hash, hm, hc, hdig, hkids]⟩

/-- C7 amended, part (1): on every repository state, a fingerprint with
no `hash_graph` children rows and no `hash_to_data` row reconstructs to
exactly the in-band sentinel
`\x7b"error": "Primitive data not found for hash", "hash": H\x7d` — no
acyclicity or parseability assumption is needed, since that path never
recurses; part (2): on repository states of the shape ingestion produces
— child keys pure ASCII (so the ASCII digit test agrees with Python's
`str.isdigit`), graph acyclic (witnessed by a rank function decreasing
along edges), all-digit child-key families in range of their row count,
stored data parseable by the JSON scalar grammar — reconstruction
returns a value rather than raising.  On other states the code can raise
(see `c7_index_error_state`). -/
theorem c7_reconstruct_value_and_sentinel :
    (∀ (db : DB) (h : String) (fuel : Nat),
        (childrenOf db h).isEmpty = true → dataOf db h = none →
        reconstruct_from_hash db (fuel + 1) h [] =
          .ok (sentinel h, [(h, sentinel h)])) ∧
    (∀ (db : DB) (rank : String → Nat),
        (∀ r ∈ db.hash_graph, rank r.2.2 < rank r.1) →
        childKeysAscii db → childKeysInRange db → storedDataParses db →
        ∀ (h : String) (fuel : Nat), rank h < fuel →
          ∃ v m, reconstruct_from_hash db fuel h [] = .ok (v, m)) := by
  constructor
  · intro db h fuel hc hd
    simp [reconstruct_from_hash, rmemoFind, hc, hd]
  · intro db rank hrank hascii hrange hparse h fuel hf
    exact reconstruct_ok db rank hrank hrange hparse fuel h [] hf

/-- Witness for `c7_reconstruct_value_and_sentinel`: a store holding the
single primitive row `("a", "true")`, queried at the absent fingerprint
`"x"` (the sentinel case) and at the stored fingerprint `"a"` (the value
case). -/
theorem c7_reconstruct_value_and_sentinel_witness :
    reconstruct_from_hash ⟨[], [], [("a", "true")], [], []⟩ 1 "x" [] =
        .ok (sentinel "x", [("x", sentinel "x")]) ∧
      ∃ v m, reconstruct_from_hash ⟨[], [], [("a", "true")], [], []⟩ 1 "a" [] =
        .ok (v, m) := by
  have hparse : storedDataParses ⟨[], [], [("a", "true")], [], []⟩ := by
    intro r hr
    simp only [List.mem_singleton] at hr
    subst hr
    decide
  constructor
  · exact c7_reconstruct_value_and_sentinel.1 ⟨[], [], [("a", "true")], [], []⟩ "x" 0
      (by decide) (by decide)
  · exact c7_reconstruct_value_and_sentinel.2 ⟨[], [], [("a", "true")], [], []⟩
      (fun _ => 0) (by simp) (by intro r hr; simp at hr) (by intro r hr; simp at hr)
      hparse "a" 1 (by decide)

end Kitsugi
